import Mathlib

/-!
Shallow embedding of the nopea/alumiini git sidecar (Rust sources under
src/nopea-git and src/alumiini-git) and proofs about it.

Modelling conventions:
- Bytes are natural numbers; well-formedness (`b < 256`) is carried as a
  hypothesis where it matters.
- The filesystem is a finite association list from normalized absolute
  paths (segment lists) to entries; the OS path resolution of `.` and
  `..` components is modelled by `normPath`.
- The git object store, working trees and remotes are explicit data; the
  external libgit2 engine calls are modelled by their documented
  observable behaviour on that data, with error payloads carried as
  strings (the code converts every error to a flat message anyway).
- The msgpack binary layer (crate rmp_serde) is external to the
  repository; theorems about the framing loop are stated for an
  arbitrary payload decoder, while the serde field/tag layer of
  `protocol.rs` is modelled concretely over a `MsgValue` tree.
-/

abbrev Bytes := List Nat

/-- Every byte value is in range. -/
def wfBytes (bs : Bytes) : Prop := ∀ b ∈ bs, b < 256

/-- Association list lookup by key (first match), used for every finite
map in the model (repositories by path, remotes by url, refs, trees). -/
def lookupKey {κ α : Type} [DecidableEq κ] (l : List (κ × α)) (k : κ) : Option α :=
  (l.find? (fun kv => decide (kv.1 = k))).map (fun kv => kv.2)

/-- Association list update-or-insert (first occurrence wins). -/
def upsertKey {κ α : Type} [DecidableEq κ] (l : List (κ × α)) (k : κ) (v : α) :
    List (κ × α) :=
  match l with
  | [] => [(k, v)]
  | (k', v') :: rest => if k' = k then (k, v) :: rest else (k', v') :: upsertKey rest k v

theorem lookupKey_upsert_self {κ α : Type} [DecidableEq κ]
    (l : List (κ × α)) (k : κ) (v : α) : lookupKey (upsertKey l k v) k = some v := by
  induction l with
  | nil => simp [upsertKey, lookupKey, List.find?]
  | cons hd tl ih =>
    obtain ⟨k', v'⟩ := hd
    by_cases h : k' = k
    · simp [upsertKey, h, lookupKey, List.find?]
    · simpa [upsertKey, h, lookupKey, List.find?] using ih

theorem lookupKey_mem {κ α : Type} [DecidableEq κ]
    {l : List (κ × α)} {k : κ} {v : α} (h : lookupKey l k = some v) : (k, v) ∈ l := by
  unfold lookupKey at h
  obtain ⟨kv, hfind, hval⟩ := Option.map_eq_some'.mp h
  have hmem := List.mem_of_find?_eq_some hfind
  have hp := List.find?_some hfind
  have hk : kv.1 = k := of_decide_eq_true hp
  have : kv = (k, v) := by
    obtain ⟨a, b⟩ := kv
    simp only at hk hval
    simp [hk, hval]
  simpa [this] using hmem

theorem lookupKey_eq_of_mem {κ α : Type} [DecidableEq κ]
    {l : List (κ × α)} {k : κ} {v : α}
    (hnd : (l.map Prod.fst).Nodup) (hmem : (k, v) ∈ l) : lookupKey l k = some v := by
  induction l with
  | nil => cases hmem
  | cons hd tl ih =>
    obtain ⟨k', v'⟩ := hd
    simp only [List.map_cons, List.nodup_cons] at hnd
    rcases List.mem_cons.mp hmem with heq | htl
    · have hk : k = k' := congrArg Prod.fst heq
      have hv : v = v' := congrArg Prod.snd heq
      simp [lookupKey, List.find?, hk, hv]
    · have hne : k' ≠ k := by
        intro hkk
        exact hnd.1 (by simpa [hkk] using List.mem_map_of_mem Prod.fst htl)
      have := ih hnd.2 htl
      simpa [lookupKey, List.find?, hne] using this

/-! ## Filesystem model

Paths on the wire are strings; the kernel resolves them componentwise,
collapsing `.`, empty components and `..`.  The store maps resolved
(segment-list) paths to entries. -/

inductive FsEntry where
  | file (content : Bytes)
  | dir
deriving DecidableEq

def FsEntry.isFile : FsEntry → Bool
  | .file _ => true
  | .dir => false

abbrev Fs := List (List String × FsEntry)

/-- Splitting a path string at slashes, accumulator-based over the
character list (the reducible counterpart of splitting on the
separator). -/
def splitSegsAux : List Char → List Char → List String
  | [], acc => [String.mk acc.reverse]
  | c :: rest, acc =>
    if c = '/' then String.mk acc.reverse :: splitSegsAux rest []
    else splitSegsAux rest (c :: acc)

def splitSegs (s : String) : List String := splitSegsAux s.data []

/-- Whether `s` starts with `pre` (reducible counterpart of the string
primitive). -/
def strStartsWith (s pre : String) : Bool := pre.data.isPrefixOf s.data

/-- Whether `s` ends with `suf`. -/
def strEndsWith (s suf : String) : Bool := suf.data.reverse.isPrefixOf s.data.reverse

/-- Componentwise resolution of a path: drops empty and `.` segments,
pops on `..` (at the root, `..` stays at the root, as on Linux). -/
def normSegsAux : List String → List String → List String
  | acc, [] => acc.reverse
  | acc, s :: rest =>
    if s = "" ∨ s = "." then normSegsAux acc rest
    else if s = ".." then normSegsAux acc.tail rest
    else normSegsAux (s :: acc) rest

def normPath (p : String) : List String := normSegsAux [] (splitSegs p)

/-- Rust `Path::new(a).join(b)`: an absolute right operand replaces the
left entirely; otherwise a separator is inserted when needed. -/
def joinPath (a b : String) : String :=
  if strStartsWith b "/" then b
  else if strEndsWith a "/" then a ++ b
  else a ++ "/" ++ b

/-- Lexicographic comparison of character lists by code point; this is
the order Rust `Vec<String>::sort` uses (byte order on UTF-8 agrees
with code-point order). -/
def charListLe : List Char → List Char → Bool
  | [], _ => true
  | _ :: _, [] => false
  | c :: cs, d :: ds =>
    if c.toNat < d.toNat then true
    else if d.toNat < c.toNat then false
    else charListLe cs ds

def strLe (a b : String) : Bool := charListLe a.data b.data

theorem charListLe_total : ∀ a b, charListLe a b = true ∨ charListLe b a = true := by
  intro a
  induction a with
  | nil => intro b; left; rfl
  | cons c cs ih =>
    intro b
    cases b with
    | nil => right; rfl
    | cons d ds =>
      by_cases h1 : c.toNat < d.toNat
      · left; simp [charListLe, h1]
      · by_cases h2 : d.toNat < c.toNat
        · right; simp [charListLe, h2]
        · rcases ih ds with h | h
          · left; simp [charListLe, h1, h2, h]
          · right; simp [charListLe, h1, h2, h]

theorem charListLe_trans :
    ∀ a b c, charListLe a b = true → charListLe b c = true → charListLe a c = true := by
  intro a
  induction a with
  | nil => intro b c _ _; rfl
  | cons x xs ih =>
    intro b c hab hbc
    cases b with
    | nil => exact absurd hab (by simp [charListLe])
    | cons y ys =>
      cases c with
      | nil => exact absurd hbc (by simp [charListLe])
      | cons z zs =>
        simp only [charListLe] at hab hbc ⊢
        by_cases h1 : x.toNat < y.toNat
        · by_cases h2 : y.toNat < z.toNat
          · rw [if_pos (by omega)]
          · rw [if_neg h2] at hbc
            by_cases h4 : z.toNat < y.toNat
            · rw [if_pos h4] at hbc
              exact Bool.noConfusion hbc
            · rw [if_pos (by omega)]
        · rw [if_neg h1] at hab
          by_cases h3 : y.toNat < x.toNat
          · rw [if_pos h3] at hab
            exact Bool.noConfusion hab
          · rw [if_neg h3] at hab
            by_cases h2 : y.toNat < z.toNat
            · rw [if_pos (by omega)]
            · rw [if_neg h2] at hbc
              by_cases h4 : z.toNat < y.toNat
              · rw [if_pos h4] at hbc
                exact Bool.noConfusion hbc
              · rw [if_neg h4] at hbc
                rw [if_neg (by omega), if_neg (by omega)]
                exact ih ys zs hab hbc

instance : IsTotal String (fun a b => strLe a b = true) :=
  ⟨fun a b => charListLe_total a.data b.data⟩

instance : IsTrans String (fun a b => strLe a b = true) :=
  ⟨fun a b c => charListLe_trans a.data b.data c.data⟩

def fsFindKey (fs : Fs) (k : List String) : Option FsEntry := lookupKey fs k

/-- `Path::exists` / entry lookup for a string path: resolve, then look up. -/
def fsFind (fs : Fs) (p : String) : Option FsEntry := fsFindKey fs (normPath p)

/-- All file contents in the store are byte-valued. -/
def FsWF (fs : Fs) : Prop :=
  ∀ kv ∈ fs, ∀ bs, kv.2 = FsEntry.file bs → wfBytes bs

/-! ## Error type and message rendering (GitError in git.rs, identical in
both crates; Display via the thiserror attributes). -/

inductive GitError where
  | Git (msg : String)
  | IoError (msg : String)
  | RepoNotFound (path : String)
  | BranchNotFound (branch : String)
  | FileNotFound (path : String)
deriving DecidableEq

def GitError.toMessage : GitError → String
  | .Git m => "git error: " ++ m
  | .IoError m => "io error: " ++ m
  | .RepoNotFound p => "repository not found at " ++ p
  | .BranchNotFound b => "branch '" ++ b ++ "' not found"
  | .FileNotFound p => "file not found: " ++ p

def GitError.isRepoNotFound : GitError → Bool
  | .RepoNotFound _ => true
  | _ => false

instance {e a : Type} [DecidableEq e] [DecidableEq a] : DecidableEq (Except e a) := fun x y =>
  match x, y with
  | .ok u, .ok v => if h : u = v then isTrue (by rw [h]) else isFalse (by simp [h])
  | .error u, .error v => if h : u = v then isTrue (by rw [h]) else isFalse (by simp [h])
  | .ok _, .error _ => isFalse (by simp)
  | .error _, .ok _ => isFalse (by simp)

structure CommitInfo where
  sha : String
  author : String
  email : String
  message : String
  timestamp : Int
deriving DecidableEq

/-! ## base64 (crate base64, engine general_purpose::STANDARD: the
RFC 4648 alphabet with `=` padding). -/

def b64Alphabet : List Char :=
  "ABCDEFGHIJKLMNOPQRSTUVWXYZabcdefghijklmnopqrstuvwxyz0123456789+/".data

def b64Char (n : Nat) : Char := b64Alphabet.getD n 'A'

def idxOfChar (c : Char) : List Char → Option Nat
  | [] => none
  | d :: rest => if c = d then some 0 else (idxOfChar c rest).map (· + 1)

def b64Index (c : Char) : Option Nat := idxOfChar c b64Alphabet

def b64EncodeChars : List Nat → List Char
  | [] => []
  | [b1] => [b64Char (b1 / 4), b64Char (b1 % 4 * 16), '=', '=']
  | [b1, b2] => [b64Char (b1 / 4), b64Char (b1 % 4 * 16 + b2 / 16), b64Char (b2 % 16 * 4), '=']
  | b1 :: b2 :: b3 :: rest =>
    b64Char (b1 / 4) :: b64Char (b1 % 4 * 16 + b2 / 16) ::
      b64Char (b2 % 16 * 4 + b3 / 64) :: b64Char (b3 % 64) :: b64EncodeChars rest

def b64encode (bs : Bytes) : String := String.mk (b64EncodeChars bs)

def b64DecodeChars : List Char → Option (List Nat)
  | [] => some []
  | c1 :: c2 :: c3 :: c4 :: rest =>
    match b64Index c1, b64Index c2 with
    | some s1, some s2 =>
      if c3 = '=' then
        if c4 = '=' ∧ rest = [] ∧ s2 % 16 = 0 then some [s1 * 4 + s2 / 16] else none
      else
        match b64Index c3 with
        | some s3 =>
          if c4 = '=' then
            if rest = [] ∧ s3 % 4 = 0 then
              some [s1 * 4 + s2 / 16, s2 % 16 * 16 + s3 / 4]
            else none
          else
            match b64Index c4 with
            | some s4 =>
              (b64DecodeChars rest).map
                (fun bs => (s1 * 4 + s2 / 16) :: (s2 % 16 * 16 + s3 / 4) :: (s3 % 4 * 64 + s4) :: bs)
            | none => none
        | none => none
    | _, _ => none
  | _ => none

def b64decode (s : String) : Option (List Nat) := b64DecodeChars s.data

theorem b64Index_b64Char : ∀ n, n < 64 → b64Index (b64Char n) = some n := by decide

theorem b64Char_ne_pad : ∀ n, n < 64 → b64Char n ≠ '=' := by decide

theorem mulAddDiv (a b k : Nat) (hk : 0 < k) (hb : b < k) : (a * k + b) / k = a := by
  rw [Nat.mul_comm a k, Nat.mul_add_div hk, Nat.div_eq_of_lt hb, Nat.add_zero]

theorem mulAddMod (a b k : Nat) (hb : b < k) : (a * k + b) % k = b := by
  rw [Nat.mul_comm a k, Nat.mul_add_mod, Nat.mod_eq_of_lt hb]

theorem b64_roundtrip_chars :
    ∀ bs : List Nat, wfBytes bs → b64DecodeChars (b64EncodeChars bs) = some bs := by
  intro bs
  induction bs using b64EncodeChars.induct with
  | case1 =>
    intro _
    rfl
  | case2 b1 =>
    intro h
    have hb1 : b1 < 256 := h b1 (by simp)
    have h1 : b1 / 4 < 64 := by omega
    have h2 : b1 % 4 * 16 < 64 := by omega
    simp only [b64EncodeChars, b64DecodeChars, b64Index_b64Char _ h1, b64Index_b64Char _ h2]
    rw [if_pos trivial,
      if_pos (show True ∧ True ∧ b1 % 4 * 16 % 16 = 0 from ⟨trivial, trivial, by omega⟩),
      show b1 % 4 * 16 / 16 = b1 % 4 from by simp,
      show b1 / 4 * 4 + b1 % 4 = b1 from by omega]
  | case3 b1 b2 =>
    intro h
    have hb1 : b1 < 256 := h b1 (by simp)
    have hb2 : b2 < 256 := h b2 (by simp)
    have h1 : b1 / 4 < 64 := by omega
    have h2 : b1 % 4 * 16 + b2 / 16 < 64 := by omega
    have h3 : b2 % 16 * 4 < 64 := by omega
    simp only [b64EncodeChars, b64DecodeChars, b64Index_b64Char _ h1, b64Index_b64Char _ h2,
      b64Index_b64Char _ h3]
    rw [if_neg (b64Char_ne_pad _ h3), if_pos trivial,
      if_pos (show True ∧ b2 % 16 * 4 % 4 = 0 from ⟨trivial, by omega⟩),
      mulAddDiv (b1 % 4) (b2 / 16) 16 (by norm_num) (by omega),
      mulAddMod (b1 % 4) (b2 / 16) 16 (by omega),
      show b2 % 16 * 4 / 4 = b2 % 16 from by simp,
      show b1 / 4 * 4 + b1 % 4 = b1 from by omega,
      show b2 / 16 * 16 + b2 % 16 = b2 from by omega]
  | case4 b1 b2 b3 rest ih =>
    intro h
    have hb1 : b1 < 256 := h b1 (by simp)
    have hb2 : b2 < 256 := h b2 (by simp)
    have hb3 : b3 < 256 := h b3 (by simp)
    have hrest : wfBytes rest := fun b hb => h b (by simp [hb])
    have h1 : b1 / 4 < 64 := by omega
    have h2 : b1 % 4 * 16 + b2 / 16 < 64 := by omega
    have h3 : b2 % 16 * 4 + b3 / 64 < 64 := by omega
    have h4 : b3 % 64 < 64 := by omega
    simp only [b64EncodeChars, b64DecodeChars, b64Index_b64Char _ h1, b64Index_b64Char _ h2,
      b64Index_b64Char _ h3, b64Index_b64Char _ h4]
    rw [if_neg (b64Char_ne_pad _ h3), if_neg (b64Char_ne_pad _ h4), ih hrest]
    simp only [Option.map_some']
    rw [mulAddDiv (b1 % 4) (b2 / 16) 16 (by norm_num) (by omega),
      mulAddMod (b1 % 4) (b2 / 16) 16 (by omega),
      mulAddDiv (b2 % 16) (b3 / 64) 4 (by norm_num) (by omega),
      mulAddMod (b2 % 16) (b3 / 64) 4 (by omega),
      show b1 / 4 * 4 + b1 % 4 = b1 from by omega,
      show b2 / 16 * 16 + b2 % 16 = b2 from by omega,
      show b3 / 64 * 64 + b3 % 64 = b3 from by omega]

theorem b64_roundtrip (bs : Bytes) (h : wfBytes bs) : b64decode (b64encode bs) = some bs := by
  simpa [b64decode, b64encode] using b64_roundtrip_chars bs h

/-! ## Leaf filesystem operations (list_files / read_file in git.rs;
the two crates contain the same functions line for line). -/

/-- The name a directory entry contributes to `list_files`: only direct
children of `dir` that are regular files, are not dot-prefixed and have a
`.yaml` or `.yml` extension are visible (git.rs, the read_dir loop). -/
def entryVisibleName (dir : List String) (kv : List String × FsEntry) : Option String :=
  match kv.1.getLast? with
  | none => none
  | some name =>
    if kv.1.dropLast = dir ∧ kv.2.isFile = true ∧ strStartsWith name "." = false ∧
        (strEndsWith name ".yaml" = true ∨ strEndsWith name ".yml" = true)
    then some name else none

def visibleYamlNames (fs : Fs) (dir : List String) : List String :=
  fs.filterMap (entryVisibleName dir)

/-- git.rs `list_files`: join the optional subpath, require the directory
to exist, collect visible YAML names, sort.  Rust `Vec::sort` on Strings
is the lexicographic ascending sort modelled by insertion sort. -/
def dirArg (repo_path : String) (subpath : Option String) : String :=
  match subpath with
  | some sub => joinPath repo_path sub
  | none => repo_path

def list_files (fs : Fs) (repo_path : String) (subpath : Option String) :
    Except GitError (List String) :=
  match fsFind fs (dirArg repo_path subpath) with
  | none => .error (.FileNotFound (dirArg repo_path subpath))
  | some (.file _) => .error (.IoError "Not a directory (os error 20)")
  | some .dir =>
    .ok (List.insertionSort (fun a b => strLe a b = true)
      (visibleYamlNames fs (normPath (dirArg repo_path subpath))))

/-- git.rs `read_file`: plain join of the two arguments (no containment
check), existence test, read, base64-encode. -/
def read_file (fs : Fs) (repo_path file : String) : Except GitError String :=
  match fsFind fs (joinPath repo_path file) with
  | none => .error (.FileNotFound (joinPath repo_path file))
  | some (.file content) => .ok (b64encode content)
  | some .dir => .error (.IoError "Is a directory (os error 21)")

/-! ## Git engine model

The libgit2 calls made by git.rs are modelled over explicit data: a
`Repo` is the on-disk state of one working tree (object store, the
commit HEAD resolves to, the configured `origin` url, remote-tracking
refs, tracked working-tree files), a `Remote` is the state of a remote
repository (branch histories, tip first, and the objects), and a `World`
holds the repositories by path, the remotes by url, the directories
created so far and the plain filesystem.  Engine errors carry their
message; the code wraps every `git2::Error` into `GitError::Git` via
the thiserror `#[from]` conversion. -/

structure CommitData where
  author : String
  email : String
  message : String
  timestamp : Int
  tree : List (String × Bytes)
deriving DecidableEq

structure Remote where
  branches : List (String × List String)
  commits : List (String × CommitData)
deriving DecidableEq

structure Repo where
  commits : List (String × CommitData)
  headTarget : Option String
  originUrl : Option String
  tracking : List (String × String)
  workFiles : List (String × Bytes)
deriving DecidableEq

structure World where
  repos : List (String × Repo)
  remotes : List (String × Remote)
  dirs : List (List String)
  fs : Fs
deriving DecidableEq

def setRepo (w : World) (path : String) (repo : Repo) : World :=
  { w with repos := upsertKey w.repos path repo }

/-- `std::fs::create_dir_all` on the parent of the clone target: every
ancestor directory of the resolved parent path comes into existence. -/
def createDirAll (w : World) (segs : List String) : World :=
  { w with dirs := segs.inits ++ w.dirs }

def parentSegs (path : String) : List String := (normPath path).dropLast

namespace Git

/-- git.rs `head`: `Repository::open`, `repo.head()`, `peel_to_commit`,
then assemble the `CommitInfo`.  Every failure is a propagated
`git2::Error`, wrapped as `GitError::Git`; an unborn HEAD (repository
with no commit yet) is such a failure.  The state is threaded to make
the absence of side effects a statement, not a typing accident. -/
def head (w : World) (path : String) : Except GitError CommitInfo × World :=
  match lookupKey w.repos path with
  | none => (.error (.Git ("could not find repository at '" ++ path ++ "'")), w)
  | some repo =>
    match repo.headTarget with
    | none => (.error (.Git "reference 'refs/heads/master' not found"), w)
    | some cid =>
      match lookupKey repo.commits cid with
      | none => (.error (.Git "object not found"), w)
      | some cd =>
        (.ok { sha := cid, author := cd.author, email := cd.email,
               message := cd.message, timestamp := cd.timestamp }, w)

/-- git2 `Oid::from_str` followed by canonical printing: forty hex
characters, case-insensitively; the canonical form is lower case.
(Shorter inputs are zero-padded by libgit2 to an id that names no
object in any world considered here, so they are rejected directly.) -/
def isHexChar (c : Char) : Bool :=
  c.isDigit || ('a' ≤ c && c ≤ 'f') || ('A' ≤ c && c ≤ 'F')

def charLower (c : Char) : Char :=
  if 'A' ≤ c ∧ c ≤ 'Z' then Char.ofNat (c.toNat + 32) else c

def strLower (s : String) : String := String.mk (s.data.map charLower)

def oidFromStr (s : String) : Option String :=
  if s.length = 40 ∧ s.data.all isHexChar then some (strLower s) else none

/-- git.rs `checkout`: open, parse the SHA, find the commit, hard-reset
(HEAD and tracked files move to the commit), echo the input string. -/
def checkout (w : World) (path sha : String) : Except GitError String × World :=
  match lookupKey w.repos path with
  | none => (.error (.Git ("could not find repository at '" ++ path ++ "'")), w)
  | some repo =>
    match oidFromStr sha with
    | none => (.error (.Git "unable to parse OID - contains invalid characters"), w)
    | some oid =>
      match lookupKey repo.commits oid with
      | none => (.error (.Git "object not found - no match for id"), w)
      | some cd =>
        (.ok sha, setRepo w path { repo with headTarget := some oid, workFiles := cd.tree })

/-- git.rs `ls_remote`: transient connection, list refs, return the oid
of `refs/heads/<branch>` or `BranchNotFound`.  No local state is read or
written, which the type records. -/
def ls_remote (w : World) (url branch : String) : Except GitError String :=
  match lookupKey w.remotes url with
  | none => .error (.Git ("failed to resolve address for " ++ url))
  | some remote =>
    match lookupKey remote.branches branch with
    | some (tip :: _) => .ok tip
    | some [] => .error (.BranchNotFound branch)
    | none => .error (.BranchNotFound branch)

/-- The objects a shallow clone at `depth` retains from a branch history
(tip first); libgit2 treats depth zero as a full fetch. -/
def cloneCommits (remote : Remote) (hist : List String) (depth : Nat) :
    List (String × CommitData) :=
  (if depth = 0 then hist else hist.take depth).filterMap
    (fun cid => (lookupKey remote.commits cid).map (fun cd => (cid, cd)))

/-- git.rs `clone`: create the parent directories, then `RepoBuilder`
with the branch and a depth-limited fetch; on success the working tree
is at the tip of the remote branch and `origin` points at `url`.  The
directory creation happens before the network step, so it persists even
when the fetch fails. -/
def clone (w : World) (url branch path : String) (depth : Nat) :
    Except GitError Repo × World :=
  match lookupKey w.remotes url with
  | none =>
    (.error (.Git ("failed to resolve address for " ++ url)),
     createDirAll w (parentSegs path))
  | some remote =>
    match lookupKey remote.branches branch with
    | none =>
      (.error (.Git ("reference 'refs/remotes/origin/" ++ branch ++ "' not found")),
       createDirAll w (parentSegs path))
    | some [] =>
      (.error (.Git ("reference 'refs/remotes/origin/" ++ branch ++ "' not found")),
       createDirAll w (parentSegs path))
    | some (tip :: hist) =>
      match lookupKey remote.commits tip with
      | none => (.error (.Git "object not found"), createDirAll w (parentSegs path))
      | some tipData =>
        (.ok { commits := cloneCommits remote (tip :: hist) depth,
               headTarget := some tip,
               originUrl := some url,
               tracking := [(branch, tip)],
               workFiles := tipData.tree },
         setRepo (createDirAll w (parentSegs path)) path
           { commits := cloneCommits remote (tip :: hist) depth,
             headTarget := some tip,
             originUrl := some url,
             tracking := [(branch, tip)],
             workFiles := tipData.tree })

/-- git.rs `fetch_and_reset`: open, `find_remote("origin")`, fetch the
single refspec `refs/heads/<branch>` (which updates the remote-tracking
ref `refs/remotes/origin/<branch>` and brings over the objects), then
peel that reference and hard-reset the working tree to it. -/
def fetch_and_reset (w : World) (path branch : String) :
    Except GitError Repo × World :=
  match lookupKey w.repos path with
  | none => (.error (.Git ("could not find repository at '" ++ path ++ "'")), w)
  | some repo =>
    match repo.originUrl with
    | none => (.error (.Git "remote 'origin' does not exist"), w)
    | some url =>
      match lookupKey w.remotes url with
      | none => (.error (.Git ("failed to resolve address for " ++ url)), w)
      | some remote =>
        match lookupKey remote.branches branch with
        | none => (.error (.Git ("refspec 'refs/heads/" ++ branch ++ "' matches nothing")), w)
        | some [] => (.error (.Git ("refspec 'refs/heads/" ++ branch ++ "' matches nothing")), w)
        | some (tip :: _) =>
          match lookupKey remote.commits tip with
          | none => (.error (.Git "object not found"), w)
          | some tipData =>
            let repo2 : Repo :=
              { repo with
                commits := upsertKey repo.commits tip tipData,
                tracking := upsertKey repo.tracking branch tip,
                headTarget := some tip,
                workFiles := tipData.tree }
            (.ok repo2, setRepo w path repo2)

/-- git.rs `sync`: presence of version-control metadata at `path`
(`path/.git` exists, i.e. a repository is recorded there) decides clone
versus fetch-and-reset; afterwards the resulting HEAD is peeled and its
id returned. -/
def sync (w : World) (url branch path : String) (depth : Nat) :
    Except GitError String × World :=
  match (if (lookupKey w.repos path).isSome
      then fetch_and_reset w path branch
      else clone w url branch path depth) with
  | (.error e, w1) => (.error e, w1)
  | (.ok repo, w1) =>
    match repo.headTarget with
    | none => (.error (.Git "reference 'refs/heads/master' not found"), w1)
    | some cid =>
      match lookupKey repo.commits cid with
      | none => (.error (.Git "object not found"), w1)
      | some _ => (.ok cid, w1)

end Git

/-! ## Wire values

A structured value as carried by the msgpack payloads; the binary
encoding itself lives in the external rmp_serde crate and is abstracted
as a decoder parameter below, while the serde field/tag layer of
protocol.rs is modelled concretely on this tree. -/

inductive MsgValue where
  | str (s : String)
  | int (i : Int)
  | arr (items : List MsgValue)
  | map (fields : List (String × MsgValue))
  | nil

def mapGet (fields : List (String × MsgValue)) (k : String) : Option MsgValue :=
  lookupKey fields k

def getStr : Option MsgValue → Option String
  | some (.str s) => some s
  | _ => none

/-- `u32::from_be_bytes` on the four-byte length prefix. -/
def beU32 (bs : Bytes) : Nat :=
  match bs with
  | [b0, b1, b2, b3] =>
    b0 % 256 * 16777216 + b1 % 256 * 65536 + b2 % 256 * 256 + b3 % 256
  | _ => 0

/-- `u32::to_be_bytes`: the four-byte big-endian encoding of a length. -/
def be32enc (n : Nat) : Bytes :=
  [n / 16777216 % 256, n / 65536 % 256, n / 256 % 256, n % 256]

theorem beU32_be32enc (n : Nat) (h : n < 4294967296) : beU32 (be32enc n) = n := by
  simp only [be32enc, beU32]
  omega

theorem be32enc_length (n : Nat) : (be32enc n).length = 4 := rfl

/-! ## alumiini-git: protocol.rs and main.rs

The request enum has the three variants Sync, Files, Read, internally
tagged by the serde-lowercased `op` field; `depth` defaults to 1.  The
response serializes to a single-entry map keyed `ok` or `err`. -/

namespace Alumiini

inductive Request where
  | Sync (url branch path : String) (depth : Nat)
  | Files (path : String) (subpath : Option String)
  | Read (path file : String)
deriving DecidableEq

inductive Response where
  | Ok (s : String)
  | OkFiles (files : List String)
  | Err (e : String)
deriving DecidableEq

/-- protocol.rs `impl Serialize for Response`: a one-entry map. -/
def serializeResponse : Response → MsgValue
  | .Ok s => .map [("ok", .str s)]
  | .OkFiles files => .map [("ok", .arr (files.map MsgValue.str))]
  | .Err e => .map [("err", .str e)]

/-- main.rs `read_request`: read the 4-byte big-endian length prefix,
read exactly that many payload bytes, decode the payload.  `parse` is
the rmp_serde deserializer for `Request`, a parameter of the model.
`none` is any `io::Error` outcome: a truncated prefix, a truncated
payload, or a payload that does not decode. -/
def read_request (parse : Bytes → Option Request) (bytes : Bytes) :
    Option (Request × Bytes) :=
  if bytes.length < 4 then none
  else if (bytes.drop 4).length < beU32 (bytes.take 4) then none
  else
    match parse ((bytes.drop 4).take (beU32 (bytes.take 4))) with
    | some req => some (req, (bytes.drop 4).drop (beU32 (bytes.take 4)))
    | none => none

/-- main.rs `handle_request`: dispatch on the variant, call into git.rs,
wrap success as an ok-response and any `GitError` as an err-response
carrying the rendered message. -/
def handle_request (w : World) (req : Request) : Response × World :=
  match req with
  | .Sync url branch path depth =>
    match Git.sync w url branch path depth with
    | (.ok commit, w') => (.Ok commit, w')
    | (.error e, w') => (.Err e.toMessage, w')
  | .Files path subpath =>
    match list_files w.fs path subpath with
    | .ok files => (.OkFiles files, w)
    | .error e => (.Err e.toMessage, w)
  | .Read path file =>
    match read_file w.fs path file with
    | .ok content => (.Ok content, w)
    | .error e => (.Err e.toMessage, w)

/-- The error the handler's git operation produces on `req`, if any. -/
def handlerError (w : World) (req : Request) : Option GitError :=
  match req with
  | .Sync url branch path depth =>
    match Git.sync w url branch path depth with
    | (.ok _, _) => none
    | (.error e, _) => some e
  | .Files path subpath =>
    match list_files w.fs path subpath with
    | .ok _ => none
    | .error e => some e
  | .Read path file =>
    match read_file w.fs path file with
    | .ok _ => none
    | .error e => some e

theorem read_request_rest_lt {parse : Bytes → Option Request} {bytes : Bytes}
    {req : Request} {rest : Bytes}
    (h : read_request parse bytes = some (req, rest)) : rest.length < bytes.length := by
  unfold read_request at h
  by_cases h4 : bytes.length < 4
  · rw [if_pos h4] at h
    exact absurd h (by simp)
  · rw [if_neg h4] at h
    by_cases hlen : (bytes.drop 4).length < beU32 (bytes.take 4)
    · rw [if_pos hlen] at h
      exact absurd h (by simp)
    · rw [if_neg hlen] at h
      match hp : parse ((bytes.drop 4).take (beU32 (bytes.take 4))) with
      | none => rw [hp] at h; exact absurd h (by simp)
      | some req0 =>
        rw [hp] at h
        injection h with h2
        have hrest : rest = (bytes.drop 4).drop (beU32 (bytes.take 4)) :=
          (congrArg Prod.snd h2).symm
        subst hrest
        simp only [List.length_drop]
        omega

/-- main.rs `main`: the read-dispatch-write loop, producing the ordered
trace of dispatched requests and the responses written for them; the
loop stops when reading a request fails.  Structured with explicit fuel
(any amount beyond the stream length is enough) so that the model stays
computable by reduction. -/
def runLoopFuel (parse : Bytes → Option Request) :
    Nat → World → Bytes → List (Request × Response)
  | 0, _, _ => []
  | fuel + 1, w, bytes =>
    match read_request parse bytes with
    | none => []
    | some (req, rest) =>
      (req, (handle_request w req).1) :: runLoopFuel parse fuel (handle_request w req).2 rest

def runLoop (parse : Bytes → Option Request) (w : World) (bytes : Bytes) :
    List (Request × Response) :=
  runLoopFuel parse (bytes.length + 1) w bytes

theorem runLoopFuel_congr (parse : Bytes → Option Request) :
    ∀ f1 f2 w bytes, bytes.length < f1 → bytes.length < f2 →
      runLoopFuel parse f1 w bytes = runLoopFuel parse f2 w bytes := by
  intro f1
  induction f1 with
  | zero => intro f2 w bytes h1; omega
  | succ f ih =>
    intro f2 w bytes h1 h2
    match f2, h2 with
    | f2' + 1, h2 =>
      simp only [runLoopFuel]
      match hread : read_request parse bytes with
      | none => rfl
      | some (req, rest) =>
        have hlt := read_request_rest_lt hread
        simp only
        rw [ih f2' (handle_request w req).2 rest (by omega) (by omega)]

theorem runLoop_step (parse : Bytes → Option Request) (w : World) (bytes : Bytes)
    (req : Request) (rest : Bytes) (h : read_request parse bytes = some (req, rest)) :
    runLoop parse w bytes =
      (req, (handle_request w req).1) ::
        runLoop parse (handle_request w req).2 rest := by
  unfold runLoop
  have hlt := read_request_rest_lt h
  conv_lhs => rw [runLoopFuel]
  rw [h]
  simp only
  rw [runLoopFuel_congr parse bytes.length (rest.length + 1) _ rest (by omega) (by omega)]

theorem runLoop_stop (parse : Bytes → Option Request) (w : World) (bytes : Bytes)
    (h : read_request parse bytes = none) : runLoop parse w bytes = [] := by
  unfold runLoop
  rw [runLoopFuel, h]

end Alumiini

/-! ## nopea-git: protocol.rs (in src) and its server loop

protocol.rs defines the full six-variant request enum and the response
with commit-info payloads.  The crate's main loop itself is not part of
the sources at hand; it is modelled from the spec (see `handle_request`
and `runLoop` below). -/

namespace Nopea

inductive Request where
  | Sync (url branch path : String) (depth : Nat)
  | Files (path : String) (subpath : Option String)
  | Read (path file : String)
  | Head (path : String)
  | Checkout (path sha : String)
  | LsRemote (url branch : String)
deriving DecidableEq

inductive Response where
  | Ok (s : String)
  | OkFiles (files : List String)
  | OkCommitInfo (info : CommitInfo)
  | Err (e : String)
deriving DecidableEq

/-- serde derive on CommitInfo (git.rs): a field map. -/
def serializeCommitInfo (info : CommitInfo) : MsgValue :=
  .map [("sha", .str info.sha), ("author", .str info.author), ("email", .str info.email),
        ("message", .str info.message), ("timestamp", .int info.timestamp)]

/-- protocol.rs `impl Serialize for Response`: a one-entry map. -/
def serializeResponse : Response → MsgValue
  | .Ok s => .map [("ok", .str s)]
  | .OkFiles files => .map [("ok", .arr (files.map MsgValue.str))]
  | .OkCommitInfo info => .map [("ok", serializeCommitInfo info)]
  | .Err e => .map [("err", .str e)]

/-- The lowercase serde tag of each variant (the §6 op column). -/
def opName : Request → String
  | .Sync .. => "sync"
  | .Files .. => "files"
  | .Read .. => "read"
  | .Head .. => "head"
  | .Checkout .. => "checkout"
  | .LsRemote .. => "lsremote"

/-- The `depth` field: optional, `default_depth()` is 1; a msgpack
integer must fit u32. -/
def getDepth (fields : List (String × MsgValue)) : Option Nat :=
  match mapGet fields "depth" with
  | none => some 1
  | some (.int i) => if 0 ≤ i ∧ i < 4294967296 then some i.toNat else none
  | some _ => none

/-- The optional `subpath` field of Files (`Option<String>` under serde:
absent or nil is None, a string is Some). -/
def getSubpath (fields : List (String × MsgValue)) : Option (Option String) :=
  match mapGet fields "subpath" with
  | none => some none
  | some .nil => some none
  | some (.str s) => some (some s)
  | some _ => none

/-- protocol.rs `Request` deserialization: serde internally tagged by
`op` with lowercased variant names; required fields must be present as
strings, unknown fields are ignored, and a missing or mismatched tag or
field is a decode failure. -/
def requestFromMsg : MsgValue → Option Request
  | .map fields =>
    match getStr (mapGet fields "op") with
    | none => none
    | some op =>
      if op = "sync" then
        match getStr (mapGet fields "url"), getStr (mapGet fields "branch"),
            getStr (mapGet fields "path"), getDepth fields with
        | some url, some branch, some path, some depth => some (.Sync url branch path depth)
        | _, _, _, _ => none
      else if op = "files" then
        match getStr (mapGet fields "path"), getSubpath fields with
        | some path, some subpath => some (.Files path subpath)
        | _, _ => none
      else if op = "read" then
        match getStr (mapGet fields "path"), getStr (mapGet fields "file") with
        | some path, some file => some (.Read path file)
        | _, _ => none
      else if op = "head" then
        match getStr (mapGet fields "path") with
        | some path => some (.Head path)
        | none => none
      else if op = "checkout" then
        match getStr (mapGet fields "path"), getStr (mapGet fields "sha") with
        | some path, some sha => some (.Checkout path sha)
        | _, _ => none
      else if op = "lsremote" then
        match getStr (mapGet fields "url"), getStr (mapGet fields "branch") with
        | some url, some branch => some (.LsRemote url branch)
        | _, _ => none
      else none
  | _ => none

/-- Modelled from the spec: nopea-git's `main.rs` (the read-dispatch-
write loop and its `handle_request` dispatcher over the six §6
variants) is not among the sources; this dispatcher follows §2, §4.5
and §6 — dispatch by variant to the git.rs operation of the same name,
wrap the result in the ok/err envelope — exactly as the alumiini-git
variant does for its three shared variants. -/
def handle_request (w : World) (req : Request) : Response × World :=
  match req with
  | .Sync url branch path depth =>
    match Git.sync w url branch path depth with
    | (.ok commit, w') => (.Ok commit, w')
    | (.error e, w') => (.Err e.toMessage, w')
  | .Files path subpath =>
    match list_files w.fs path subpath with
    | .ok files => (.OkFiles files, w)
    | .error e => (.Err e.toMessage, w)
  | .Read path file =>
    match read_file w.fs path file with
    | .ok content => (.Ok content, w)
    | .error e => (.Err e.toMessage, w)
  | .Head path =>
    match Git.head w path with
    | (.ok info, w') => (.OkCommitInfo info, w')
    | (.error e, w') => (.Err e.toMessage, w')
  | .Checkout path sha =>
    match Git.checkout w path sha with
    | (.ok s, w') => (.Ok s, w')
    | (.error e, w') => (.Err e.toMessage, w')
  | .LsRemote url branch =>
    match Git.ls_remote w url branch with
    | .ok tip => (.Ok tip, w)
    | .error e => (.Err e.toMessage, w)

/-- The full payload decoder: the external msgpack parse (a parameter)
followed by the protocol.rs request deserialization. -/
def decodePayload (parseVal : Bytes → Option MsgValue) (bs : Bytes) : Option Request :=
  (parseVal bs).bind requestFromMsg

/-- Modelled from the spec: framing as in §6 (4-byte big-endian length
prefix, then the payload), identical to alumiini-git's `read_request`. -/
def read_request (parseVal : Bytes → Option MsgValue) (bytes : Bytes) :
    Option (Request × Bytes) :=
  if bytes.length < 4 then none
  else if (bytes.drop 4).length < beU32 (bytes.take 4) then none
  else
    match decodePayload parseVal ((bytes.drop 4).take (beU32 (bytes.take 4))) with
    | some req => some (req, (bytes.drop 4).drop (beU32 (bytes.take 4)))
    | none => none

theorem read_request_shrinks {parseVal : Bytes → Option MsgValue} {bytes : Bytes}
    {req : Request} {rest : Bytes}
    (h : read_request parseVal bytes = some (req, rest)) : rest.length < bytes.length := by
  unfold read_request at h
  by_cases h4 : bytes.length < 4
  · rw [if_pos h4] at h
    exact absurd h (by simp)
  · rw [if_neg h4] at h
    by_cases hlen : (bytes.drop 4).length < beU32 (bytes.take 4)
    · rw [if_pos hlen] at h
      exact absurd h (by simp)
    · rw [if_neg hlen] at h
      match hp : decodePayload parseVal ((bytes.drop 4).take (beU32 (bytes.take 4))) with
      | none => rw [hp] at h; exact absurd h (by simp)
      | some req0 =>
        rw [hp] at h
        injection h with h2
        have hrest : rest = (bytes.drop 4).drop (beU32 (bytes.take 4)) :=
          (congrArg Prod.snd h2).symm
        subst hrest
        simp only [List.length_drop]
        omega

/-- Modelled from the spec: the §4.5 read-dispatch-write loop of the
nopea-git server, as a trace of dispatched requests and written
responses; fuelled for computability, any fuel beyond the stream length
is enough. -/
def runLoopFuel (parseVal : Bytes → Option MsgValue) :
    Nat → World → Bytes → List (Request × Response)
  | 0, _, _ => []
  | fuel + 1, w, bytes =>
    match read_request parseVal bytes with
    | none => []
    | some (req, rest) =>
      (req, (handle_request w req).1) :: runLoopFuel parseVal fuel (handle_request w req).2 rest

def runLoop (parseVal : Bytes → Option MsgValue) (w : World) (bytes : Bytes) :
    List (Request × Response) :=
  runLoopFuel parseVal (bytes.length + 1) w bytes

theorem runLoopFuel_fuel_irrel (parseVal : Bytes → Option MsgValue) :
    ∀ f1 f2 w bytes, bytes.length < f1 → bytes.length < f2 →
      runLoopFuel parseVal f1 w bytes = runLoopFuel parseVal f2 w bytes := by
  intro f1
  induction f1 with
  | zero => intro f2 w bytes h1; omega
  | succ f ih =>
    intro f2 w bytes h1 h2
    match f2, h2 with
    | f2' + 1, h2 =>
      simp only [runLoopFuel]
      match hread : read_request parseVal bytes with
      | none => rfl
      | some (req, rest) =>
        have hlt := read_request_shrinks hread
        simp only
        rw [ih f2' (handle_request w req).2 rest (by omega) (by omega)]

theorem runLoop_cons (parseVal : Bytes → Option MsgValue) (w : World) (bytes : Bytes)
    (req : Request) (rest : Bytes)
    (h : read_request parseVal bytes = some (req, rest)) :
    runLoop parseVal w bytes =
      (req, (handle_request w req).1) ::
        runLoop parseVal (handle_request w req).2 rest := by
  unfold runLoop
  have hlt := read_request_shrinks h
  conv_lhs => rw [runLoopFuel]
  rw [h]
  simp only
  rw [runLoopFuel_fuel_irrel parseVal bytes.length (rest.length + 1) _ rest (by omega) (by omega)]

end Nopea

/-! ## Claim theorems -/

/-- A decidable sufficient condition for `FsWF`, for concrete stores. -/
def fsWFb (fs : Fs) : Bool :=
  fs.all (fun kv =>
    match kv.2 with
    | .file c => c.all (fun b => decide (b < 256))
    | .dir => true)

theorem FsWF_of_fsWFb {fs : Fs} (h : fsWFb fs = true) : FsWF fs := by
  intro kv hmem bs heq b hb
  have hkv := List.all_eq_true.mp h kv hmem
  rw [heq] at hkv
  exact of_decide_eq_true (List.all_eq_true.mp hkv b hb)

/-- C9: for every file whose resolved path exists, `read_file` returns
the standard base64 encoding of that file's exact byte content —
decoding the returned string yields precisely the on-disk bytes — for
text and arbitrary binary content alike. -/
theorem c9_read_file_roundtrip (fs : Fs) (base file s : String)
    (hwf : FsWF fs) (h : read_file fs base file = .ok s) :
    ∃ bytes, fsFind fs (joinPath base file) = some (.file bytes) ∧
      b64decode s = some bytes := by
  unfold read_file at h
  match hfind : fsFind fs (joinPath base file) with
  | none => rw [hfind] at h; exact absurd h (by simp)
  | some .dir => rw [hfind] at h; exact absurd h (by simp)
  | some (.file content) =>
    rw [hfind] at h
    have hs : s = b64encode content := by
      injection h with h'
      exact h'.symm
    have hmem : (normPath (joinPath base file), FsEntry.file content) ∈ fs :=
      lookupKey_mem hfind
    have hwfc : wfBytes content := hwf _ hmem content rfl
    exact ⟨content, rfl, by rw [hs]; exact b64_roundtrip content hwfc⟩

def fs9 : Fs := [(["repo"], .dir), (["repo", "data.bin"], .file [0, 255, 10, 77])]

theorem c9_read_file_roundtrip_witness :
    ∃ bytes, fsFind fs9 (joinPath "/repo" "data.bin") = some (.file bytes) ∧
      b64decode "AP8KTQ==" = some bytes :=
  c9_read_file_roundtrip fs9 "/repo" "data.bin" "AP8KTQ=="
    (FsWF_of_fsWFb (by decide)) (by decide)

/-- C8: for every existing directory, `list_files` returns exactly the
names of the regular files directly inside it (non-recursive) whose
name does not start with a dot and ends with `.yaml` or `.yml`, sorted
in lexicographic order. -/
theorem c8_list_files_filter (fs : Fs) (p : String)
    (hdir : fsFind fs p = some .dir) (hnd : (fs.map Prod.fst).Nodup) :
    ∃ l, list_files fs p none = .ok l ∧ l.Sorted (fun a b => strLe a b = true) ∧
      ∀ name, name ∈ l ↔
        ((∃ c, fsFindKey fs (normPath p ++ [name]) = some (.file c)) ∧
         strStartsWith name "." = false ∧
         (strEndsWith name ".yaml" = true ∨ strEndsWith name ".yml" = true)) := by
  refine ⟨List.insertionSort (fun a b => strLe a b = true)
    (visibleYamlNames fs (normPath p)), ?_, ?_, ?_⟩
  · unfold list_files
    have hd : dirArg p none = p := rfl
    rw [hd, hdir]
  · exact List.sorted_insertionSort _ _
  · intro name
    rw [(List.perm_insertionSort _ _).mem_iff]
    constructor
    · intro hmem
      obtain ⟨kv, hkv, hvis⟩ := List.mem_filterMap.mp hmem
      obtain ⟨k, e⟩ := kv
      unfold entryVisibleName at hvis
      split at hvis
      · exact absurd hvis (by simp)
      · rename_i nm hlast
        split at hvis
        · rename_i hcond
          have hname : nm = name := by injection hvis
          subst hname
          have hne : k ≠ [] := by
            intro hk
            rw [hk] at hlast
            cases hlast
          have hk : k = normPath p ++ [nm] := by
            have h1 := List.dropLast_append_getLast hne
            have h2 : k.getLast hne = nm := by
              have h3 := List.getLast?_eq_getLast k hne
              rw [h3] at hlast
              exact Option.some_inj.mp hlast
            rw [hcond.1, h2] at h1
            exact h1.symm
          obtain ⟨c, hc⟩ : ∃ c, e = FsEntry.file c := by
            cases e with
            | file c => exact ⟨c, rfl⟩
            | dir => exact absurd hcond.2.1 (by simp [FsEntry.isFile])
          refine ⟨⟨c, ?_⟩, hcond.2.2.1, hcond.2.2.2⟩
          have hmem' : (normPath p ++ [nm], FsEntry.file c) ∈ fs := by
            rw [← hk, ← hc]
            exact hkv
          exact lookupKey_eq_of_mem hnd hmem'
        · exact absurd hvis (by simp)
    · rintro ⟨⟨c, hc⟩, hdot, hext⟩
      have hmem : (normPath p ++ [name], FsEntry.file c) ∈ fs := lookupKey_mem hc
      refine List.mem_filterMap.mpr ⟨(normPath p ++ [name], FsEntry.file c), hmem, ?_⟩
      have hcond : (normPath p ++ [name]).dropLast = normPath p ∧
          (FsEntry.file c).isFile = true ∧ strStartsWith name "." = false ∧
          (strEndsWith name ".yaml" = true ∨ strEndsWith name ".yml" = true) :=
        ⟨List.dropLast_concat, rfl, hdot, hext⟩
      unfold entryVisibleName
      rw [List.getLast?_concat]
      exact if_pos hcond

def fs8 : Fs :=
  [(["repo"], .dir),
   (["repo", "c.md"], .file [35]),
   (["repo", "b.yml"], .file [100]),
   (["repo", ".hidden.yaml"], .file [115]),
   (["repo", "a.yaml"], .file [97])]

theorem c8_list_files_filter_witness :
    list_files fs8 "/repo" none = .ok ["a.yaml", "b.yml"] ∧
    ∃ l, list_files fs8 "/repo" none = .ok l ∧ l.Sorted (fun a b => strLe a b = true) ∧
      ∀ name, name ∈ l ↔
        ((∃ c, fsFindKey fs8 (normPath "/repo" ++ [name]) = some (.file c)) ∧
         strStartsWith name "." = false ∧
         (strEndsWith name ".yaml" = true ∨ strEndsWith name ".yml" = true)) :=
  ⟨by decide, c8_list_files_filter fs8 "/repo" (by decide) (by decide)⟩

def fs10 : Fs :=
  [(["repo"], .dir), (["secret"], .dir), (["secret", "key.txt"], .file [104, 105])]

/-- C10: `read_file` resolves its target by a plain join with no
containment check — an absolute `file` argument discards the base
entirely, a `..` segment can resolve outside the working tree (shown on
a concrete escape), and success versus `FileNotFound` is decided solely
by the existence of the joined path; `list_files` joins its subpath the
same way. -/
theorem c10_join_no_containment :
    (∀ base file, strStartsWith file "/" = true → joinPath base file = file) ∧
    (∀ fs base base' file, strStartsWith file "/" = true →
      read_file fs base file = read_file fs base' file) ∧
    (∀ fs base file,
      read_file fs base file = .error (.FileNotFound (joinPath base file)) ↔
        fsFind fs (joinPath base file) = none) ∧
    (∀ fs base file c, fsFind fs (joinPath base file) = some (.file c) →
      read_file fs base file = .ok (b64encode c)) ∧
    (∀ fs base sub,
      list_files fs base (some sub) = .error (.FileNotFound (joinPath base sub)) ↔
        fsFind fs (joinPath base sub) = none) ∧
    (read_file fs10 "/repo" "../secret/key.txt" = .ok (b64encode [104, 105]) ∧
     normPath (joinPath "/repo" "../secret/key.txt") = ["secret", "key.txt"] ∧
     (normPath (joinPath "/repo" "../secret/key.txt")).take 1 ≠ normPath "/repo") := by
  have hjoin : ∀ base file, strStartsWith file "/" = true → joinPath base file = file := by
    intro base file habs
    unfold joinPath
    rw [if_pos habs]
  refine ⟨hjoin, ?_, ?_, ?_, ?_, by decide, by decide, by decide⟩
  · intro fs base base' file habs
    unfold read_file
    rw [hjoin base file habs, hjoin base' file habs]
  · intro fs base file
    unfold read_file
    constructor
    · intro h
      match hfind : fsFind fs (joinPath base file) with
      | none => rfl
      | some (.file content) => rw [hfind] at h; exact absurd h (by simp)
      | some .dir => rw [hfind] at h; exact absurd h (by simp)
    · intro h
      rw [h]
  · intro fs base file c h
    unfold read_file
    rw [h]
  · intro fs base sub
    unfold list_files
    have hd : dirArg base (some sub) = joinPath base sub := rfl
    rw [hd]
    constructor
    · intro h
      match hfind : fsFind fs (joinPath base sub) with
      | none => rfl
      | some (.file content) => rw [hfind] at h; exact absurd h (by simp)
      | some .dir => rw [hfind] at h; exact absurd h (by simp)
    · intro h
      rw [h]

theorem c10_join_no_containment_witness :
    joinPath "/repo" "/etc/passwd" = "/etc/passwd" ∧
    read_file fs10 "/repo" "../secret/key.txt" = .ok (b64encode [104, 105]) :=
  ⟨c10_join_no_containment.1 "/repo" "/etc/passwd" (by decide),
   c10_join_no_containment.2.2.2.2.2.1⟩

/-- C4 (amended): `head` is a pure read — the world it returns is the
world it was given — and on a repository whose HEAD does not resolve to
a commit it fails with a wrapped engine error (`GitError.Git`), the
propagated `git2` failure of `repo.head()`. -/
theorem c4_head_pure_unborn_git_error (w : World) (path : String) :
    (Git.head w path).2 = w ∧
    (∀ repo, lookupKey w.repos path = some repo → repo.headTarget = none →
      ∃ msg, (Git.head w path).1 = .error (.Git msg)) := by
  constructor
  · unfold Git.head
    repeat' split
    all_goals rfl
  · intro repo hrepo hnone
    unfold Git.head
    simp only [hrepo, hnone]
    exact ⟨_, rfl⟩

def emptyRepo : Repo :=
  { commits := [], headTarget := none, originUrl := none, tracking := [], workFiles := [] }

def w4 : World := { repos := [("/repo", emptyRepo)], remotes := [], dirs := [], fs := [] }

/-- C4 counterexample: on a freshly initialized, commit-less repository
the error is the `Git`-wrapped engine error, not `RepoNotFound` (the
code never constructs the `RepoNotFound` variant). -/
theorem c4_head_unborn_not_repoNotFound :
    (Git.head w4 "/repo").1 =
      .error (.Git "reference 'refs/heads/master' not found") ∧
    GitError.isRepoNotFound (.Git "reference 'refs/heads/master' not found") = false := by
  decide

theorem c4_head_pure_unborn_git_error_witness :
    (Git.head w4 "/repo").2 = w4 ∧
    ∃ msg, (Git.head w4 "/repo").1 = .error (.Git msg) :=
  ⟨(c4_head_pure_unborn_git_error w4 "/repo").1,
   (c4_head_pure_unborn_git_error w4 "/repo").2 emptyRepo (by decide) rfl⟩

/-- The HEAD read after installing a repository state at a path. -/
theorem head_after_set (w : World) (path : String) (repo : Repo) (oid : String)
    (cd : CommitData) (hh : repo.headTarget = some oid)
    (hcd : lookupKey repo.commits oid = some cd) :
    (Git.head (setRepo w path repo) path).1 =
      .ok { sha := oid, author := cd.author, email := cd.email,
            message := cd.message, timestamp := cd.timestamp } := by
  unfold Git.head setRepo
  simp only [lookupKey_upsert_self, hh, hcd]

/-- C7: if `checkout(path, sha)` succeeds it returns exactly the input
string `sha`, and afterwards the working tree's HEAD is the requested
commit — `head(path).sha` is that commit's identifier — with the
tracked files hard-reset to that commit's tree. -/
theorem c7_checkout_echo_and_reset (w : World) (path sha r : String) (w' : World)
    (h : Git.checkout w path sha = (.ok r, w')) :
    r = sha ∧
    ∃ oid repo cd,
      Git.oidFromStr sha = some oid ∧
      lookupKey w.repos path = some repo ∧
      lookupKey repo.commits oid = some cd ∧
      (Git.head w' path).1 =
        .ok { sha := oid, author := cd.author, email := cd.email,
              message := cd.message, timestamp := cd.timestamp } ∧
      ∃ repo', lookupKey w'.repos path = some repo' ∧
        repo'.headTarget = some oid ∧ repo'.workFiles = cd.tree := by
  unfold Git.checkout at h
  match hrepo : lookupKey w.repos path with
  | none => simp only [hrepo] at h; exact absurd (congrArg Prod.fst h) (by simp)
  | some repo =>
    simp only [hrepo] at h
    match hoid : Git.oidFromStr sha with
    | none => simp only [hoid] at h; exact absurd (congrArg Prod.fst h) (by simp)
    | some oid =>
      simp only [hoid] at h
      match hcd : lookupKey repo.commits oid with
      | none => simp only [hcd] at h; exact absurd (congrArg Prod.fst h) (by simp)
      | some cd =>
        simp only [hcd] at h
        have hr : r = sha := by
          have h1 := congrArg Prod.fst h
          simp only at h1
          injection h1 with h2
          exact h2.symm
        have hw : w' = setRepo w path
            { repo with headTarget := some oid, workFiles := cd.tree } :=
          (congrArg Prod.snd h).symm
        subst hw
        refine ⟨hr, oid, repo, cd, rfl, rfl, hcd, ?_, ?_⟩
        · exact head_after_set w path _ oid cd rfl hcd
        · refine ⟨_, lookupKey_upsert_self w.repos path _, rfl, rfl⟩

def shaA : String := "aaaaaaaaaaaaaaaaaaaaaaaaaaaaaaaaaaaaaaaa"

def cdA : CommitData :=
  { author := "Test User", email := "test@example.com", message := "First commit",
    timestamp := 1700000000, tree := [("file.txt", [118, 49])] }

def repo7 : Repo :=
  { commits := [(shaA, cdA)], headTarget := some shaA, originUrl := none,
    tracking := [], workFiles := [("file.txt", [118, 50])] }

def w7 : World := { repos := [("/repo", repo7)], remotes := [], dirs := [], fs := [] }

theorem c7_checkout_echo_and_reset_witness :
    shaA = shaA ∧
    ∃ oid repo cd,
      Git.oidFromStr shaA = some oid ∧
      lookupKey w7.repos "/repo" = some repo ∧
      lookupKey repo.commits oid = some cd ∧
      (Git.head (Git.checkout w7 "/repo" shaA).2 "/repo").1 =
        .ok { sha := oid, author := cd.author, email := cd.email,
              message := cd.message, timestamp := cd.timestamp } ∧
      ∃ repo', lookupKey (Git.checkout w7 "/repo" shaA).2.repos "/repo" = some repo' ∧
        repo'.headTarget = some oid ∧ repo'.workFiles = cd.tree :=
  c7_checkout_echo_and_reset w7 "/repo" shaA shaA (Git.checkout w7 "/repo" shaA).2 (by decide)

/-- A failing git operation makes the dispatcher produce the rendered
err response (alumiini-git main.rs, the per-variant error arms). -/
theorem alumiini_handle_err (w : World) (req : Alumiini.Request) (e : GitError)
    (herr : Alumiini.handlerError w req = some e) :
    ∃ w', Alumiini.handle_request w req = (.Err e.toMessage, w') := by
  cases req with
  | Sync url branch path depth =>
    simp only [Alumiini.handlerError] at herr
    simp only [Alumiini.handle_request]
    match hs : Git.sync w url branch path depth with
    | (.ok c, w1) =>
      rw [hs] at herr
      simp at herr
    | (.error e1, w1) =>
      rw [hs] at herr
      simp only at herr
      have he : e1 = e := by
        injection herr
      subst he
      exact ⟨w1, rfl⟩
  | Files path subpath =>
    simp only [Alumiini.handlerError] at herr
    simp only [Alumiini.handle_request]
    match hs : list_files w.fs path subpath with
    | .ok files =>
      rw [hs] at herr
      simp at herr
    | .error e1 =>
      rw [hs] at herr
      simp only at herr
      have he : e1 = e := by
        injection herr
      subst he
      exact ⟨w, rfl⟩
  | Read path file =>
    simp only [Alumiini.handlerError] at herr
    simp only [Alumiini.handle_request]
    match hs : read_file w.fs path file with
    | .ok content =>
      rw [hs] at herr
      simp at herr
    | .error e1 =>
      rw [hs] at herr
      simp only at herr
      have he : e1 = e := by
        injection herr
      subst he
      exact ⟨w, rfl⟩

/-- C2: for every decodable request whose handler's git operation fails
(branch/file not found, engine or io error), the failure is caught at
the dispatch boundary, written back as the single-key map with the
`err` tag and the rendered message, and the loop goes on to read the
next request; no operation-level error terminates the loop. -/
theorem c2_op_errors_do_not_kill_loop (parse : Bytes → Option Alumiini.Request)
    (w : World) (bytes : Bytes) (req : Alumiini.Request) (rest : Bytes) (e : GitError)
    (hread : Alumiini.read_request parse bytes = some (req, rest))
    (herr : Alumiini.handlerError w req = some e) :
    ∃ w', Alumiini.handle_request w req = (.Err e.toMessage, w') ∧
      Alumiini.runLoop parse w bytes =
        (req, Alumiini.Response.Err e.toMessage) :: Alumiini.runLoop parse w' rest ∧
      Alumiini.serializeResponse (.Err e.toMessage) =
        MsgValue.map [("err", MsgValue.str e.toMessage)] := by
  obtain ⟨w', hw⟩ := alumiini_handle_err w req e herr
  refine ⟨w', hw, ?_, rfl⟩
  have hstep := Alumiini.runLoop_step parse w bytes req rest hread
  rw [hw] at hstep
  exact hstep

def emptyWorld : World := { repos := [], remotes := [], dirs := [], fs := [] }

theorem c2_op_errors_do_not_kill_loop_witness :
    ∃ w', Alumiini.handle_request emptyWorld (.Read "/repo" "missing.yaml") =
        (.Err (GitError.FileNotFound "/repo/missing.yaml").toMessage, w') ∧
      Alumiini.runLoop (fun _ => some (.Read "/repo" "missing.yaml")) emptyWorld [0, 0, 0, 0] =
        (Alumiini.Request.Read "/repo" "missing.yaml",
         Alumiini.Response.Err (GitError.FileNotFound "/repo/missing.yaml").toMessage) ::
          Alumiini.runLoop (fun _ => some (.Read "/repo" "missing.yaml")) w' [] ∧
      Alumiini.serializeResponse (.Err (GitError.FileNotFound "/repo/missing.yaml").toMessage) =
        MsgValue.map [("err", MsgValue.str (GitError.FileNotFound "/repo/missing.yaml").toMessage)] :=
  c2_op_errors_do_not_kill_loop (fun _ => some (.Read "/repo" "missing.yaml"))
    emptyWorld [0, 0, 0, 0] (.Read "/repo" "missing.yaml") [] (.FileNotFound "/repo/missing.yaml")
    (by decide) (by decide)

/-- C3: whenever reading a frame fails the protocol loop terminates
with no response for that frame and no further dispatch; and a read
failure is exactly one of the three modes — truncated length prefix,
truncated payload, or a payload that does not decode to a request. -/
theorem c3_framing_failure_fatal (parse : Bytes → Option Alumiini.Request)
    (w : World) (bytes : Bytes)
    (h : Alumiini.read_request parse bytes = none) :
    Alumiini.runLoop parse w bytes = [] ∧
    (bytes.length < 4 ∨
     (4 ≤ bytes.length ∧ bytes.length - 4 < beU32 (bytes.take 4)) ∨
     (4 ≤ bytes.length ∧ beU32 (bytes.take 4) ≤ bytes.length - 4 ∧
      parse ((bytes.drop 4).take (beU32 (bytes.take 4))) = none)) := by
  refine ⟨Alumiini.runLoop_stop parse w bytes h, ?_⟩
  unfold Alumiini.read_request at h
  by_cases h4 : bytes.length < 4
  · exact Or.inl h4
  · rw [if_neg h4] at h
    by_cases hlen : (bytes.drop 4).length < beU32 (bytes.take 4)
    · right; left
      simp only [List.length_drop] at hlen
      exact ⟨by omega, by omega⟩
    · rw [if_neg hlen] at h
      right; right
      simp only [List.length_drop] at hlen
      refine ⟨by omega, by omega, ?_⟩
      match hp : parse ((bytes.drop 4).take (beU32 (bytes.take 4))) with
      | none => rfl
      | some req => rw [hp] at h; exact absurd h (by simp)

theorem c3_framing_failure_fatal_witness :
    Alumiini.runLoop (fun _ => none) emptyWorld [0, 0, 0, 5] = [] ∧
    (([0, 0, 0, 5] : Bytes).length < 4 ∨
     (4 ≤ ([0, 0, 0, 5] : Bytes).length ∧
      ([0, 0, 0, 5] : Bytes).length - 4 < beU32 (([0, 0, 0, 5] : Bytes).take 4)) ∨
     (4 ≤ ([0, 0, 0, 5] : Bytes).length ∧
      beU32 (([0, 0, 0, 5] : Bytes).take 4) ≤ ([0, 0, 0, 5] : Bytes).length - 4 ∧
      (fun (_ : Bytes) => (none : Option Alumiini.Request))
        ((([0, 0, 0, 5] : Bytes).drop 4).take (beU32 (([0, 0, 0, 5] : Bytes).take 4))) = none)) :=
  c3_framing_failure_fatal (fun _ => none) emptyWorld [0, 0, 0, 5] (by decide)

theorem lookupKey_cons_self {κ α : Type} [DecidableEq κ] (k : κ) (v : α)
    (rest : List (κ × α)) : lookupKey ((k, v) :: rest) k = some v := by
  simp [lookupKey, List.find?]

theorem mem_dirs_createDirAll (w : World) (segs : List String) :
    segs ∈ (createDirAll w segs).dirs := by
  unfold createDirAll
  simp [List.mem_inits]

theorem cloneCommits_lookup_tip (remote : Remote) (tip : String) (hist : List String)
    (depth : Nat) (tipData : CommitData)
    (h : lookupKey remote.commits tip = some tipData) :
    lookupKey (Git.cloneCommits remote (tip :: hist) depth) tip = some tipData := by
  unfold Git.cloneCommits
  by_cases hd : depth = 0
  · subst hd
    rw [if_pos rfl]
    simp only [List.filterMap_cons, h, Option.map_some']
    exact lookupKey_cons_self _ _ _
  · rw [if_neg hd]
    match depth, hd with
    | d + 1, _ =>
      simp only [List.take_succ_cons, List.filterMap_cons, h, Option.map_some']
      exact lookupKey_cons_self _ _ _

/-- C1: `sync` decides on working-tree presence; when absent it clones
(creating the parent directories, shallow-fetching limited to `depth`,
checking out the branch tip), when present it fetches the named branch
from the repository's remote and hard-resets to the fetched tip; in
both cases the returned value is the commit identifier of the resulting
HEAD. -/
theorem c1_sync_spec (w : World) (url branch path : String) (depth : Nat)
    (r : Except GitError String) (w' : World)
    (h : Git.sync w url branch path depth = (r, w')) :
    (lookupKey w.repos path = none →
      parentSegs path ∈ w'.dirs ∧
      ∀ c, r = .ok c →
        ∃ remote hist tipData,
          lookupKey w.remotes url = some remote ∧
          lookupKey remote.branches branch = some hist ∧
          hist.head? = some c ∧
          lookupKey remote.commits c = some tipData ∧
          ∃ repo, lookupKey w'.repos path = some repo ∧
            repo.headTarget = some c ∧
            repo.originUrl = some url ∧
            repo.commits = Git.cloneCommits remote hist depth ∧
            repo.workFiles = tipData.tree) ∧
    (∀ repo0, lookupKey w.repos path = some repo0 →
      ∀ c, r = .ok c →
        ∃ origin remote hist tipData,
          repo0.originUrl = some origin ∧
          lookupKey w.remotes origin = some remote ∧
          lookupKey remote.branches branch = some hist ∧
          hist.head? = some c ∧
          lookupKey remote.commits c = some tipData ∧
          ∃ repo, lookupKey w'.repos path = some repo ∧
            lookupKey repo.tracking branch = some c ∧
            repo.headTarget = some c ∧
            repo.originUrl = some origin ∧
            repo.workFiles = tipData.tree) ∧
    (∀ c, r = .ok c →
      ∃ info, (Git.head w' path).1 = .ok info ∧ info.sha = c) := by
  unfold Git.sync at h
  match hrepo0 : lookupKey w.repos path with
  | some repo0 =>
    simp only [hrepo0, Option.isSome_some, if_true] at h
    unfold Git.fetch_and_reset at h
    simp only [hrepo0] at h
    match horig : repo0.originUrl with
    | none =>
      simp only [horig] at h
      have hr : r = .error (.Git "remote 'origin' does not exist") :=
        (congrArg Prod.fst h).symm
      refine ⟨fun hc => absurd hc (by simp), ?_, ?_⟩
      · intro repo1 _ c hc
        rw [hr] at hc
        cases hc
      · intro c hc
        rw [hr] at hc
        cases hc
    | some origin =>
      simp only [horig] at h
      match hrem : lookupKey w.remotes origin with
      | none =>
        simp only [hrem] at h
        have hr : r = .error (.Git ("failed to resolve address for " ++ origin)) :=
          (congrArg Prod.fst h).symm
        refine ⟨fun hc => absurd hc (by simp), ?_, ?_⟩
        · intro repo1 _ c hc
          rw [hr] at hc
          cases hc
        · intro c hc
          rw [hr] at hc
          cases hc
      | some remote =>
        simp only [hrem] at h
        match hbr : lookupKey remote.branches branch with
        | none =>
          simp only [hbr] at h
          have hr : r = .error (.Git ("refspec 'refs/heads/" ++ branch ++ "' matches nothing")) :=
            (congrArg Prod.fst h).symm
          refine ⟨fun hc => absurd hc (by simp), ?_, ?_⟩
          · intro repo1 _ c hc
            rw [hr] at hc
            cases hc
          · intro c hc
            rw [hr] at hc
            cases hc
        | some [] =>
          simp only [hbr] at h
          have hr : r = .error (.Git ("refspec 'refs/heads/" ++ branch ++ "' matches nothing")) :=
            (congrArg Prod.fst h).symm
          refine ⟨fun hc => absurd hc (by simp), ?_, ?_⟩
          · intro repo1 _ c hc
            rw [hr] at hc
            cases hc
          · intro c hc
            rw [hr] at hc
            cases hc
        | some (tip :: hist') =>
          simp only [hbr] at h
          match htip : lookupKey remote.commits tip with
          | none =>
            simp only [htip] at h
            have hr : r = .error (.Git "object not found") := (congrArg Prod.fst h).symm
            refine ⟨fun hc => absurd hc (by simp), ?_, ?_⟩
            · intro repo1 _ c hc
              rw [hr] at hc
              cases hc
            · intro c hc
              rw [hr] at hc
              cases hc
          | some tipData =>
            simp only [htip, lookupKey_upsert_self] at h
            have hr : r = .ok tip := (congrArg Prod.fst h).symm
            have hw : w' = setRepo w path
                { commits := upsertKey repo0.commits tip tipData,
                  headTarget := some tip,
                  originUrl := some origin,
                  tracking := upsertKey repo0.tracking branch tip,
                  workFiles := tipData.tree } := (congrArg Prod.snd h).symm
            subst hw
            refine ⟨fun hc => absurd hc (by simp), ?_, ?_⟩
            · intro repo1 hrepo1 c hc
              have hr1 : repo1 = repo0 := by
                injection hrepo1 with h1
                exact h1.symm
              subst hr1
              rw [hr] at hc
              injection hc with hc1
              subst hc1
              refine ⟨origin, remote, tip :: hist', tipData, horig, hrem, hbr, rfl, htip,
                _, lookupKey_upsert_self _ _ _, lookupKey_upsert_self _ _ _, rfl, rfl, rfl⟩
            · intro c hc
              rw [hr] at hc
              injection hc with hc1
              subst hc1
              exact ⟨_, head_after_set w path _ tip tipData rfl (lookupKey_upsert_self _ _ _), rfl⟩
  | none =>
    simp only [hrepo0, Option.isSome_none, Bool.false_eq_true, if_false] at h
    unfold Git.clone at h
    match hrem : lookupKey w.remotes url with
    | none =>
      simp only [hrem] at h
      have hr : r = .error (.Git ("failed to resolve address for " ++ url)) :=
        (congrArg Prod.fst h).symm
      have hw : w' = createDirAll w (parentSegs path) := (congrArg Prod.snd h).symm
      subst hw
      refine ⟨fun _ => ⟨mem_dirs_createDirAll w _, ?_⟩, ?_, ?_⟩
      · intro c hc
        rw [hr] at hc
        cases hc
      · intro repo1 hrepo1
        cases hrepo1
      · intro c hc
        rw [hr] at hc
        cases hc
    | some remote =>
      simp only [hrem] at h
      match hbr : lookupKey remote.branches branch with
      | none =>
        simp only [hbr] at h
        have hr : r = .error
            (.Git ("reference 'refs/remotes/origin/" ++ branch ++ "' not found")) :=
          (congrArg Prod.fst h).symm
        have hw : w' = createDirAll w (parentSegs path) := (congrArg Prod.snd h).symm
        subst hw
        refine ⟨fun _ => ⟨mem_dirs_createDirAll w _, ?_⟩, ?_, ?_⟩
        · intro c hc
          rw [hr] at hc
          cases hc
        · intro repo1 hrepo1
          cases hrepo1
        · intro c hc
          rw [hr] at hc
          cases hc
      | some [] =>
        simp only [hbr] at h
        have hr : r = .error
            (.Git ("reference 'refs/remotes/origin/" ++ branch ++ "' not found")) :=
          (congrArg Prod.fst h).symm
        have hw : w' = createDirAll w (parentSegs path) := (congrArg Prod.snd h).symm
        subst hw
        refine ⟨fun _ => ⟨mem_dirs_createDirAll w _, ?_⟩, ?_, ?_⟩
        · intro c hc
          rw [hr] at hc
          cases hc
        · intro repo1 hrepo1
          cases hrepo1
        · intro c hc
          rw [hr] at hc
          cases hc
      | some (tip :: hist') =>
        simp only [hbr] at h
        match htip : lookupKey remote.commits tip with
        | none =>
          simp only [htip] at h
          have hr : r = .error (.Git "object not found") := (congrArg Prod.fst h).symm
          have hw : w' = createDirAll w (parentSegs path) := (congrArg Prod.snd h).symm
          subst hw
          refine ⟨fun _ => ⟨mem_dirs_createDirAll w _, ?_⟩, ?_, ?_⟩
          · intro c hc
            rw [hr] at hc
            cases hc
          · intro repo1 hrepo1
            cases hrepo1
          · intro c hc
            rw [hr] at hc
            cases hc
        | some tipData =>
          simp only [htip, cloneCommits_lookup_tip remote tip hist' depth tipData htip] at h
          have hr : r = .ok tip := (congrArg Prod.fst h).symm
          have hw : w' = setRepo (createDirAll w (parentSegs path)) path
              { commits := Git.cloneCommits remote (tip :: hist') depth,
                headTarget := some tip,
                originUrl := some url,
                tracking := [(branch, tip)],
                workFiles := tipData.tree } := (congrArg Prod.snd h).symm
          subst hw
          refine ⟨fun _ => ⟨mem_dirs_createDirAll w _, ?_⟩, ?_, ?_⟩
          · intro c hc
            rw [hr] at hc
            injection hc with hc1
            subst hc1
            exact ⟨remote, tip :: hist', tipData, rfl, hbr, rfl, htip,
              _, lookupKey_upsert_self _ _ _, rfl, rfl, rfl, rfl⟩
          · intro repo1 hrepo1
            cases hrepo1
          · intro c hc
            rw [hr] at hc
            injection hc with hc1
            subst hc1
            exact ⟨_, head_after_set _ path _ tip tipData rfl
              (cloneCommits_lookup_tip remote tip hist' depth tipData htip), rfl⟩

def remE : Remote := { branches := [("main", [shaA])], commits := [(shaA, cdA)] }

def wE : World :=
  { repos := [], remotes := [("https://example.com/a.git", remE)], dirs := [], fs := [] }

theorem c1_sync_spec_witness :
    ∃ info,
      (Git.head (Git.sync wE "https://example.com/a.git" "main" "/data/app" 1).2
          "/data/app").1 = .ok info ∧ info.sha = shaA :=
  (c1_sync_spec wE "https://example.com/a.git" "main" "/data/app" 1
      (Git.sync wE "https://example.com/a.git" "main" "/data/app" 1).1
      (Git.sync wE "https://example.com/a.git" "main" "/data/app" 1).2 rfl).2.2
    shaA (by decide)

/-- A tracked-file modification of the working tree at `path`: only the
checked-out file contents change, nothing else. -/
def withWorkFiles (w : World) (path : String) (files : List (String × Bytes)) : World :=
  match lookupKey w.repos path with
  | none => w
  | some repo => setRepo w path { repo with workFiles := files }

theorem withWorkFiles_lookup {w : World} {path : String} {repo : Repo}
    (files : List (String × Bytes)) (h : lookupKey w.repos path = some repo) :
    lookupKey (withWorkFiles w path files).repos path =
      some { repo with workFiles := files } := by
  unfold withWorkFiles
  simp only [h, setRepo]
  exact lookupKey_upsert_self _ _ _

theorem withWorkFiles_remotes (w : World) (path : String)
    (files : List (String × Bytes)) :
    (withWorkFiles w path files).remotes = w.remotes := by
  unfold withWorkFiles
  split
  · rfl
  · rfl

theorem clone_remotes (w : World) (url branch path : String) (depth : Nat) :
    (Git.clone w url branch path depth).2.remotes = w.remotes := by
  unfold Git.clone createDirAll setRepo
  repeat' split
  all_goals rfl

theorem fetch_and_reset_remotes (w : World) (path branch : String) :
    (Git.fetch_and_reset w path branch).2.remotes = w.remotes := by
  unfold Git.fetch_and_reset setRepo
  repeat' split
  all_goals rfl

theorem sync_remotes (w : World) (url branch path : String) (depth : Nat) :
    (Git.sync w url branch path depth).2.remotes = w.remotes := by
  unfold Git.sync
  by_cases hp : (lookupKey w.repos path).isSome
  · rw [if_pos hp]
    match hstep : Git.fetch_and_reset w path branch with
    | (r0, w1) =>
      have hw1 : w1.remotes = w.remotes := by
        have h0 := fetch_and_reset_remotes w path branch
        rw [hstep] at h0
        exact h0
      cases r0 with
      | error e => exact hw1
      | ok repo =>
        dsimp only
        cases repo.headTarget with
        | none => exact hw1
        | some cid =>
          dsimp only
          cases lookupKey repo.commits cid with
          | none => exact hw1
          | some cd => exact hw1
  · rw [if_neg hp]
    match hstep : Git.clone w url branch path depth with
    | (r0, w1) =>
      have hw1 : w1.remotes = w.remotes := by
        have h0 := clone_remotes w url branch path depth
        rw [hstep] at h0
        exact h0
      cases r0 with
      | error e => exact hw1
      | ok repo =>
        dsimp only
        cases repo.headTarget with
        | none => exact hw1
        | some cid =>
          dsimp only
          cases lookupKey repo.commits cid with
          | none => exact hw1
          | some cd => exact hw1

/-- C6: if `sync` succeeds and the remote has not changed, a second
call with identical arguments succeeds with the same commit identifier,
whatever tracked-file modifications were made to the working tree in
between. -/
theorem c6_sync_idempotent (w : World) (url branch path : String) (depth : Nat)
    (c : String) (w1 : World) (files : List (String × Bytes))
    (h1 : Git.sync w url branch path depth = (.ok c, w1)) :
    (Git.sync (withWorkFiles w1 path files) url branch path depth).1 = .ok c := by
  have hc1 := c1_sync_spec w url branch path depth (.ok c) w1 h1
  have hrem_eq : w1.remotes = w.remotes := by
    have h0 := sync_remotes w url branch path depth
    rw [h1] at h0
    exact h0
  match hrepo0 : lookupKey w.repos path with
  | none =>
    obtain ⟨_, hclone⟩ := hc1.1 hrepo0
    obtain ⟨remote, hist, tipData, hrem, hbr, hhead, hcommit, repo, hlook, hHT, hOU, hCM, hWF⟩ :=
      hclone c rfl
    obtain ⟨hist', rfl⟩ : ∃ t, hist = c :: t := by
      cases hist with
      | nil => cases hhead
      | cons a t =>
        injection hhead with ha
        exact ⟨t, by rw [ha]⟩
    have hlook2 : lookupKey (withWorkFiles w1 path files).repos path =
        some { repo with workFiles := files } := withWorkFiles_lookup files hlook
    have hrem2 : lookupKey (withWorkFiles w1 path files).remotes url = some remote := by
      rw [withWorkFiles_remotes, hrem_eq, hrem]
    simp only [Git.sync, Git.fetch_and_reset, hlook2, Option.isSome_some, if_true,
      hOU, hrem2, hbr, hcommit, lookupKey_upsert_self]
  | some repo0 =>
    obtain ⟨origin, remote, hist, tipData, hOU0, hrem, hbr, hhead, hcommit,
      repo, hlook, hTR, hHT, hOU, hWF⟩ := hc1.2.1 repo0 hrepo0 c rfl
    obtain ⟨hist', rfl⟩ : ∃ t, hist = c :: t := by
      cases hist with
      | nil => cases hhead
      | cons a t =>
        injection hhead with ha
        exact ⟨t, by rw [ha]⟩
    have hlook2 : lookupKey (withWorkFiles w1 path files).repos path =
        some { repo with workFiles := files } := withWorkFiles_lookup files hlook
    have hrem2 : lookupKey (withWorkFiles w1 path files).remotes origin = some remote := by
      rw [withWorkFiles_remotes, hrem_eq, hrem]
    simp only [Git.sync, Git.fetch_and_reset, hlook2, Option.isSome_some, if_true,
      hOU, hrem2, hbr, hcommit, lookupKey_upsert_self]

theorem c6_sync_idempotent_witness :
    (Git.sync
        (withWorkFiles (Git.sync wE "https://example.com/a.git" "main" "/data/app" 1).2
          "/data/app" [("f.yaml", [1, 2])])
        "https://example.com/a.git" "main" "/data/app" 1).1 = .ok shaA :=
  c6_sync_idempotent wE "https://example.com/a.git" "main" "/data/app" 1 shaA
    (Git.sync wE "https://example.com/a.git" "main" "/data/app" 1).2
    [("f.yaml", [1, 2])] (by decide)

theorem getStr_some {x : Option MsgValue} {s : String} (h : getStr x = some s) :
    x = some (.str s) := by
  match x with
  | some (.str t) =>
    injection h with h1
    rw [h1]
  | none => cases h
  | some (.int _) => cases h
  | some (.arr _) => cases h
  | some (.map _) => cases h
  | some .nil => cases h

/-- A decoded request came from a map whose `op` field is the §6 tag of
the variant it was dispatched to. -/
theorem requestFromMsg_op {m : MsgValue} {req : Nopea.Request}
    (h : Nopea.requestFromMsg m = some req) :
    ∃ fields, m = .map fields ∧ mapGet fields "op" = some (.str (Nopea.opName req)) := by
  match m with
  | .str _ => cases h
  | .int _ => cases h
  | .arr _ => cases h
  | .nil => cases h
  | .map fields =>
    refine ⟨fields, rfl, ?_⟩
    simp only [Nopea.requestFromMsg] at h
    match hop : getStr (mapGet fields "op") with
    | none =>
      rw [hop] at h
      exact Option.noConfusion h
    | some op =>
      rw [hop] at h
      dsimp only at h
      by_cases h1 : op = "sync"
      · subst h1
        rw [if_pos rfl] at h
        split at h
        · injection h with h2
          subst h2
          exact getStr_some hop
        · cases h
      · rw [if_neg h1] at h
        by_cases h2 : op = "files"
        · subst h2
          rw [if_pos rfl] at h
          split at h
          · injection h with h3
            subst h3
            exact getStr_some hop
          · cases h
        · rw [if_neg h2] at h
          by_cases h3 : op = "read"
          · subst h3
            rw [if_pos rfl] at h
            split at h
            · injection h with h4
              subst h4
              exact getStr_some hop
            · cases h
          · rw [if_neg h3] at h
            by_cases h4 : op = "head"
            · subst h4
              rw [if_pos rfl] at h
              split at h
              · injection h with h5
                subst h5
                exact getStr_some hop
              · cases h
            · rw [if_neg h4] at h
              by_cases h5 : op = "checkout"
              · subst h5
                rw [if_pos rfl] at h
                split at h
                · injection h with h6
                  subst h6
                  exact getStr_some hop
                · cases h
              · rw [if_neg h5] at h
                by_cases h6 : op = "lsremote"
                · subst h6
                  rw [if_pos rfl] at h
                  split at h
                  · injection h with h7
                    subst h7
                    exact getStr_some hop
                  · cases h
                · rw [if_neg h6] at h
                  cases h

/-- C5: for every §6 variant — sync, files, read, head, checkout,
lsremote — the framed server decodes the request by its `op` tag,
dispatches it to the matching handler, and writes exactly one ok-or-err
response for it before looping on. -/
theorem c5_dispatch_one_response (parseVal : Bytes → Option MsgValue) (w : World)
    (payload more : Bytes) (m : MsgValue) (req : Nopea.Request)
    (hm : parseVal payload = some m) (hreq : Nopea.requestFromMsg m = some req)
    (hlen : payload.length < 4294967296) :
    (∃ fields, m = .map fields ∧ mapGet fields "op" = some (.str (Nopea.opName req))) ∧
    Nopea.runLoop parseVal w (be32enc payload.length ++ (payload ++ more)) =
      (req, (Nopea.handle_request w req).1) ::
        Nopea.runLoop parseVal (Nopea.handle_request w req).2 more ∧
    (∃ key v, Nopea.serializeResponse (Nopea.handle_request w req).1 = .map [(key, v)] ∧
      (key = "ok" ∨ key = "err")) := by
  have htake : (be32enc payload.length ++ (payload ++ more)).take 4 = be32enc payload.length :=
    List.take_left (be32enc payload.length) (payload ++ more)
  have hdrop : (be32enc payload.length ++ (payload ++ more)).drop 4 = payload ++ more :=
    List.drop_left (be32enc payload.length) (payload ++ more)
  have hlen4 : (be32enc payload.length ++ (payload ++ more)).length =
      4 + (payload.length + more.length) := by
    simp [be32enc]
    omega
  have hread : Nopea.read_request parseVal (be32enc payload.length ++ (payload ++ more)) =
      some (req, more) := by
    unfold Nopea.read_request
    rw [if_neg (by omega), htake, hdrop, beU32_be32enc _ hlen]
    rw [if_neg (by simp only [List.length_append]; omega)]
    rw [List.take_left payload more, List.drop_left payload more]
    simp only [Nopea.decodePayload, hm, Option.some_bind, hreq]
  refine ⟨requestFromMsg_op hreq, ?_, ?_⟩
  · exact Nopea.runLoop_cons parseVal w _ req more hread
  · match (Nopea.handle_request w req).1 with
    | .Ok s => exact ⟨"ok", .str s, rfl, Or.inl rfl⟩
    | .OkFiles files => exact ⟨"ok", .arr (files.map MsgValue.str), rfl, Or.inl rfl⟩
    | .OkCommitInfo info => exact ⟨"ok", Nopea.serializeCommitInfo info, rfl, Or.inl rfl⟩
    | .Err e => exact ⟨"err", .str e, rfl, Or.inr rfl⟩

def msgHead : MsgValue := .map [("op", .str "head"), ("path", .str "/repo")]

theorem c5_dispatch_one_response_witness :
    (∃ fields, msgHead = .map fields ∧
      mapGet fields "op" = some (.str (Nopea.opName (.Head "/repo")))) ∧
    Nopea.runLoop (fun _ => some msgHead) w7
        (be32enc ([] : Bytes).length ++ (([] : Bytes) ++ ([] : Bytes))) =
      (Nopea.Request.Head "/repo", (Nopea.handle_request w7 (.Head "/repo")).1) ::
        Nopea.runLoop (fun _ => some msgHead)
          (Nopea.handle_request w7 (.Head "/repo")).2 ([] : Bytes) ∧
    (∃ key v,
      Nopea.serializeResponse (Nopea.handle_request w7 (.Head "/repo")).1 =
        .map [(key, v)] ∧ (key = "ok" ∨ key = "err")) :=
  c5_dispatch_one_response (fun _ => some msgHead) w7 [] [] msgHead
    (.Head "/repo") rfl rfl (by decide)
